import Mathlib

/-!
Verification of the filtering-and-aggregation pipeline of the thyroid-cancer
dashboard (`app.py`).  The pandas/numpy operations the script calls are
shallowly embedded: a data frame is a list of records, a column is a list of
optional values (`none` models a missing value / NaN), numeric cells are
rationals.  Each definition mirrors one line or expression of the script and
is named after the variable it computes where possible.
-/

namespace Visdat

/-! ### Data model -/

/-- One patient row (`df`'s columns used by the script).  A `none` models a
missing value (NaN): pandas comparisons against NaN are false, which the
embedding reproduces by comparing `Option` values. -/
structure Record where
  age : Option ℚ
  gender : Option String
  country : Option String
  tsh : Option ℚ
  t3 : Option ℚ
  t4 : Option ℚ
  nodule : Option ℚ
  risk : Option String
  diagnosis : Option String
deriving DecidableEq, Repr

/-- The sidebar filter parameters: the age slider bounds and the two
selectboxes, whose sentinel value is the literal string `"All"`. -/
structure FilterSpec where
  age_min : ℚ
  age_max : ℚ
  gender : String
  country : String
deriving DecidableEq, Repr

/-- The five numeric columns offered for the heatmap (line 28). -/
inductive NumCol where
  | Age
  | TSH_Level
  | T3_Level
  | T4_Level
  | Nodule_Size
deriving DecidableEq, Repr

/-- Column access `r[c]` for a numeric column. -/
def colVal (r : Record) : NumCol → Option ℚ
  | .Age => r.age
  | .TSH_Level => r.tsh
  | .T3_Level => r.t3
  | .T4_Level => r.t4
  | .Nodule_Size => r.nodule

/-! ### Filter stage (lines 33–37) -/

/-- `df["Age"] >= lo & df["Age"] <= hi` on one row: false when Age is NaN. -/
def ageOk (lo hi : ℚ) (r : Record) : Bool :=
  match r.age with
  | some a => decide (lo ≤ a) && decide (a ≤ hi)
  | none => false

/-- Lines 33–37 of `app.py`: the age-range mask, then the gender equality
mask when the selectbox is not `"All"`, then the country mask. -/
def filteredView (tbl : List Record) (fs : FilterSpec) : List Record :=
  let s1 := tbl.filter (ageOk fs.age_min fs.age_max)
  let s2 := if fs.gender = "All" then s1
            else s1.filter (fun r => r.gender == some fs.gender)
  if fs.country = "All" then s2
  else s2.filter (fun r => r.country == some fs.country)

/-- The predicate of the specification: Age present and inside the inclusive
range, and each string filter matched exactly when it is active. -/
def specPred (fs : FilterSpec) (r : Record) : Prop :=
  (∃ a, r.age = some a ∧ fs.age_min ≤ a ∧ a ≤ fs.age_max)
  ∧ (fs.gender ≠ "All" → r.gender = some fs.gender)
  ∧ (fs.country ≠ "All" → r.country = some fs.country)

/-! ### Sidebar option lists (lines 22–23) -/

/-- Python string order (code-point lexicographic), used by `sorted`. -/
def charListLe : List Char → List Char → Bool
  | [], _ => true
  | _ :: _, [] => false
  | a :: as, b :: bs =>
    if a.toNat < b.toNat then true
    else if b.toNat < a.toNat then false
    else charListLe as bs

/-- Comparison of two strings by code points. -/
def strLe (s t : String) : Bool := charListLe s.data t.data

/-- Insertion into a sorted list of strings. -/
def insertStr (s : String) : List String → List String
  | [] => [s]
  | t :: ts => if strLe s t then s :: t :: ts else t :: insertStr s ts

/-- `sorted` on a list of strings. -/
def sortStrings (l : List String) : List String := l.foldr insertStr []

/-- `Series.unique`: distinct values in first-appearance order, a missing
value (NaN) included as `none` when present. -/
def uniqueFirst {α : Type} [DecidableEq α] (l : List α) : List α :=
  l.foldl (fun acc x => if x ∈ acc then acc else acc ++ [x]) []

/-- Line 22/23 of `app.py`: `["All"] + sorted(df[col].unique().tolist())`.
Python's `sorted` raises a `TypeError` when it compares the NaN float with a
string, which happens exactly when the unique list holds a NaN next to at
least one other value; the crash is modelled by `none`. -/
def selectOptions (col : List (Option String)) : Option (List (Option String)) :=
  let u := uniqueFirst col
  if none ∈ u then
    if u.length ≤ 1 then some (some "All" :: u) else none
  else some (some "All" :: (sortStrings (u.filterMap id)).map some)

/-! ### Category counts (lines 66 and 100) -/

/-- `Series.value_counts()`: occurrence count of every distinct non-missing
value.  pandas orders the pairs by count (line 100) or by label
(`sort_index()`, line 66); no claim depends on the order, so the
first-appearance order of `dedup` is used. -/
def valueCounts (l : List (Option String)) : List (String × ℕ) :=
  let v := l.filterMap id
  v.dedup.map (fun s => (s, v.count s))

/-! ### Pie-chart colour assignment (lines 103–104) -/

/-- Line 103: the fixed five-element palette. -/
def colors : List String :=
  ["#c9d9d3", "#718dbf", "#e84d60", "#ddb7b1", "#a1dab4"]

/-- The distinct non-missing Diagnosis values of a view
(`diag_counts.index`, line 100). -/
def diagCategories (view : List Record) : List String :=
  ((view.map (fun r => r.diagnosis)).filterMap id).dedup

/-- Line 104: `diag_data['color'] = colors[:len(diag_data)]`.  The slice
truncates silently, but assigning a column shorter than the frame raises a
pandas `ValueError`, modelled by `none`. -/
def assignColors (cats : List String) : Option (List (String × String)) :=
  let cs := colors.take cats.length
  if cs.length = cats.length then some (cats.zip cs) else none

/-! ### Histogram (line 85): `np.histogram(filtered_df["Age"], bins=bin_count)` -/

/-- Membership of a value in bin `i` of `n`: every bin is half-open
`[lower, upper)` except the last, which is closed on both ends. -/
def binMem (first w : ℚ) (n i : ℕ) (v : ℚ) : Bool :=
  decide (first + i * w ≤ v) &&
    (if i + 1 < n then decide (v < first + (i + 1) * w)
     else decide (v ≤ first + (i + 1) * w))

/-- `a.min()` of a nonempty list (0 for the empty list, unused there). -/
def listMin : List ℚ → ℚ
  | [] => 0
  | [x] => x
  | x :: y :: ys => min x (listMin (y :: ys))

/-- `a.max()` of a nonempty list (0 for the empty list, unused there). -/
def listMax : List ℚ → ℚ
  | [] => 0
  | [x] => x
  | x :: y :: ys => max x (listMax (y :: ys))

/-- numpy's `_get_outer_edges`: the data range, widened to `(0, 1)` for empty
input and to `(min - 0.5, max + 0.5)` when all values coincide. -/
def outerEdges (vals : List ℚ) : ℚ × ℚ :=
  match vals with
  | [] => (0, 1)
  | _ :: _ =>
    if listMin vals = listMax vals then (listMin vals - 1/2, listMax vals + 1/2)
    else (listMin vals, listMax vals)

/-- `n` equal-width bins over `[first, last]` as `(left edge, right edge,
count)` triples, the shape `np.histogram` returns. -/
def histogramOn (first last : ℚ) (n : ℕ) (vals : List ℚ) : List (ℚ × ℚ × ℕ) :=
  let w := (last - first) / n
  (List.range n).map (fun (i : ℕ) =>
    (first + i * w, first + (i + 1) * w, vals.countP (binMem first w n i)))

/-- `np.histogram(vals, bins=n)`: equal-width bins over the outer edges. -/
def histogram (vals : List ℚ) (n : ℕ) : List (ℚ × ℚ × ℕ) :=
  histogramOn (outerEdges vals).1 (outerEdges vals).2 n vals

/-- The claim's wording of the histogram: `n` equal-width bins dividing
exactly `[min, max]` of the values, same bin-membership rule. -/
def specHistogram (vals : List ℚ) (n : ℕ) : List (ℚ × ℚ × ℕ) :=
  histogramOn (listMin vals) (listMax vals) n vals

/-! ### Correlation heatmap (lines 126–130): `filtered_df[heatmap_cols].corr()` -/

/-- Pairwise-complete observations: the rows where both columns of the pair
are non-missing (pandas' NaN handling inside `corr`). -/
def completePairs (l : List (Option ℚ × Option ℚ)) : List (ℚ × ℚ) :=
  l.filterMap (fun p =>
    match p with
    | (some a, some b) => some (a, b)
    | _ => none)

/-- Arithmetic mean (0 on the empty list, unused there). -/
def meanQ (l : List ℚ) : ℚ := l.sum / l.length

/-- Centred cross-product sum `covxy` of pandas `nancorr`. -/
def covS (l : List (ℚ × ℚ)) : ℚ :=
  (l.map (fun p =>
    (p.1 - meanQ (l.map Prod.fst)) * (p.2 - meanQ (l.map Prod.snd)))).sum

/-- Centred square sum `ssqdmx` of pandas `nancorr`. -/
def varX (l : List (ℚ × ℚ)) : ℚ :=
  (l.map (fun p => (p.1 - meanQ (l.map Prod.fst)) ^ 2)).sum

/-- Centred square sum `ssqdmy` of pandas `nancorr`. -/
def varY (l : List (ℚ × ℚ)) : ℚ :=
  (l.map (fun p => (p.2 - meanQ (l.map Prod.snd)) ^ 2)).sum

/-- One Pearson coefficient as pandas `nancorr` computes it:
`covxy / sqrt(ssqdmx * ssqdmy)`, NaN (here `none`) whenever the divisor is
zero — which covers the empty and single-row cases (`min_periods=1`).  The
square root forces the value into `ℝ`; the sums stay exact in `ℚ`. -/
noncomputable def pearson (l : List (ℚ × ℚ)) : Option ℝ :=
  if varX l = 0 ∨ varY l = 0 then none
  else some ((covS l : ℝ) / Real.sqrt ((varX l : ℝ) * (varY l : ℝ)))

/-- `corr().round(2)` applied to one coefficient.  (numpy rounds ties to
even, Mathlib's `round` rounds them up; no claim depends on tie behaviour,
and coefficients produced by `pearson` are never affected elsewhere in this
development.) -/
noncomputable def roundTo2 (x : ℝ) : ℝ := ((round (x * 100) : ℤ) : ℝ) / 100

/-- The column pair `(c1, c2)` read off every row of the view. -/
def pairCol (view : List Record) (c1 c2 : NumCol) :
    List (Option ℚ × Option ℚ) :=
  view.map (fun r => (colVal r c1, colVal r c2))

/-- Entry `(c1, c2)` of `filtered_df[heatmap_cols].corr().round(2)`. -/
noncomputable def corrEntry (view : List Record) (c1 c2 : NumCol) : Option ℝ :=
  (pearson (completePairs (pairCol view c1 c2))).map roundTo2

/-- Number of rows of the view with a non-missing value in column `c`. -/
def countValid (view : List Record) (c : NumCol) : ℕ :=
  (view.filterMap (fun r => colVal r c)).length

/-- Lines 126–150: the heatmap block runs only under
`if len(heatmap_cols) >= 2`; otherwise the script emits the warning and no
matrix is built (modelled by `none`).  The matrix is the list
`[(x, y, corr.loc[y, x]) for x in cols for y in cols]` of line 128–130. -/
noncomputable def heatmapStage (view : List Record) (cols : List NumCol) :
    Option (List (NumCol × NumCol × Option ℝ)) :=
  if 2 ≤ cols.length then
    some (cols.flatMap (fun x => cols.map (fun y => (x, y, corrEntry view y x))))
  else none

/-! ### Data loader (lines 10–13): `pd.read_csv` type inference -/

/-- Decimal value of a digit list. -/
def natOfDigits (cs : List Char) : ℕ :=
  cs.foldl (fun a c => 10 * a + (c.toNat - 48)) 0

/-- One cell of a loaded column: a parsed number, a kept string, or a
missing value (NaN). -/
inductive CellVal where
  | num (q : ℚ)
  | str (s : String)
  | missing
deriving DecidableEq, Repr

/-- Unsigned decimal literal: digits, optionally a point and more digits. -/
def parseCore (ds : List Char) : Option ℚ :=
  let intPart := ds.takeWhile Char.isDigit
  let rest := ds.drop intPart.length
  match rest with
  | [] => if intPart.isEmpty then none else some (natOfDigits intPart)
  | '.' :: frac =>
    if frac.all Char.isDigit ∧ ¬(intPart.isEmpty ∧ frac.isEmpty) then
      some ((natOfDigits intPart : ℚ) + (natOfDigits frac : ℚ) / 10 ^ frac.length)
    else none
  | _ => none

/-- Numeric parse of one CSV cell: optional sign, then a decimal literal. -/
def parseNum (s : String) : Option ℚ :=
  match s.data with
  | '-' :: t => (parseCore t).map (fun q => -q)
  | '+' :: t => parseCore t
  | t => parseCore t

/-- `pd.read_csv`'s per-column dtype inference (the only processing
`load_data` performs): a column becomes numeric only when every non-empty
cell parses as a number, with empty cells read as NaN; otherwise the cells
are kept as strings (empty ones still NaN).  There is no designated-column
coercion anywhere in `load_data`. -/
def inferColumn (col : List String) : List CellVal :=
  if col.all (fun s => s = "" || (parseNum s).isSome) then
    col.map (fun s =>
      if s = "" then CellVal.missing
      else match parseNum s with
        | some q => CellVal.num q
        | none => CellVal.missing)
  else
    col.map (fun s => if s = "" then CellVal.missing else CellVal.str s)

/-- The claim's wording of the loader: every cell of a designated numeric
column is converted to a number, an unparseable cell becoming missing. -/
def coerceColumn (col : List String) : List CellVal :=
  col.map (fun s =>
    match parseNum s with
    | some q => CellVal.num q
    | none => CellVal.missing)

/-! ### Sample data for concrete witnesses -/

/-- A sample record used by concrete witnesses. -/
def recA : Record :=
  { age := some 25, gender := some "F", country := some "US"
    tsh := some 2, t3 := some 1, t4 := some 8, nodule := some 1
    risk := some "Low", diagnosis := some "Benign" }

/-- A second sample record used by concrete witnesses. -/
def recB : Record :=
  { age := some 70, gender := some "M", country := some "UK"
    tsh := some 4, t3 := some 2, t4 := some 9, nodule := some 2
    risk := some "High", diagnosis := some "Malignant" }

/-- A record with a given diagnosis and no other data, used in witnesses. -/
def mkDiag (d : String) : Record :=
  { age := none, gender := none, country := none, tsh := none, t3 := none
    t4 := none, nodule := none, risk := none, diagnosis := some d }

/-! ### Helper lemmas -/

theorem ageOk_iff (lo hi : ℚ) (r : Record) :
    ageOk lo hi r = true ↔ ∃ a, r.age = some a ∧ lo ≤ a ∧ a ≤ hi := by
  cases h : r.age with
  | none => simp [ageOk, h]
  | some a => simp [ageOk, h]

theorem mem_filteredView (tbl : List Record) (fs : FilterSpec) (r : Record) :
    r ∈ filteredView tbl fs ↔ r ∈ tbl ∧ specPred fs r := by
  unfold filteredView specPred
  by_cases hg : fs.gender = "All" <;> by_cases hc : fs.country = "All" <;>
    simp [hg, hc, List.mem_filter, ageOk_iff, and_assoc] <;>
    intro _ <;> tauto

theorem sum_map_count_cons {α : Type} [DecidableEq α] (d : List α) (a : α)
    (l : List α) :
    (d.map fun s => (a :: l).count s).sum
      = (d.map fun s => l.count s).sum + d.count a := by
  induction d with
  | nil => simp
  | cons t d ih =>
    rw [List.map_cons, List.sum_cons, ih, List.map_cons, List.sum_cons,
      List.count_cons, List.count_cons]
    rcases eq_or_ne t a with rfl | h
    · simp; omega
    · simp [h, h.symm]; omega

theorem sum_counts {α : Type} [DecidableEq α] (l : List α) :
    ((l.dedup).map (fun s => l.count s)).sum = l.length := by
  induction l with
  | nil => simp
  | cons a l ih =>
    by_cases h : a ∈ l
    · rw [List.dedup_cons_of_mem h, sum_map_count_cons, ih, List.count_dedup]
      simp [h]
    · rw [List.dedup_cons_of_not_mem h]
      rw [List.map_cons, List.sum_cons, sum_map_count_cons, ih, List.count_dedup]
      have hc : l.count a = 0 := List.count_eq_zero.mpr h
      simp [h, hc, List.count_cons]; omega

theorem length_filterMap_eq_countP {α β : Type} (f : α → Option β)
    (l : List α) :
    (l.filterMap f).length = l.countP (fun a => (f a).isSome) := by
  induction l with
  | nil => simp
  | cons a l ih =>
    cases h : f a <;> simp [List.filterMap_cons, h, List.countP_cons, ih]

theorem valueCounts_sum (l : List (Option String)) :
    ((valueCounts l).map Prod.snd).sum = (l.filterMap id).length := by
  unfold valueCounts
  rw [List.map_map]
  exact sum_counts (l.filterMap id)

theorem assignColors_isSome_iff (cats : List String) :
    (assignColors cats).isSome ↔ cats.length ≤ 5 := by
  unfold assignColors
  have hlen : (colors.take cats.length).length = min cats.length 5 := by
    simp [colors]
  by_cases h : cats.length ≤ 5
  · have hc : (colors.take cats.length).length = cats.length := by
      rw [hlen]; exact min_eq_left h
    rw [if_pos hc]; simp [h]
  · have hc : ¬(colors.take cats.length).length = cats.length := by
      rw [hlen, min_eq_right (by omega : 5 ≤ cats.length)]; omega
    rw [if_neg hc]; simpa using h

theorem countP_eq_one_of_unique {α : Type} (l : List α) (q : α → Bool) (k : α)
    (hnd : l.Nodup) (hk : k ∈ l) (hq : q k = true)
    (huniq : ∀ j ∈ l, q j = true → j = k) : l.countP q = 1 := by
  induction l with
  | nil => cases hk
  | cons a l ih =>
    rw [List.countP_cons]
    rcases List.mem_cons.mp hk with rfl | hk2
    · have hz : l.countP q = 0 := by
        rw [List.countP_eq_zero]
        intro b hb hqb
        have hba : b = k := huniq b (List.mem_cons_of_mem _ hb) hqb
        subst hba
        exact (List.nodup_cons.mp hnd).1 hb
      rw [hz, hq]
      simp
    · have hne : a ≠ k := by
        intro h
        subst h
        exact (List.nodup_cons.mp hnd).1 hk2
      have ha : q a = false := by
        cases hqa : q a
        · rfl
        · exact absurd (huniq a (List.mem_cons_self a l) hqa) hne
      rw [ha]
      simpa using ih (List.nodup_cons.mp hnd).2 hk2
        (fun j hj hqj => huniq j (List.mem_cons_of_mem _ hj) hqj)

theorem binMem_countP_range (first last : ℚ) (n : ℕ) (hn : 1 ≤ n)
    (hfl : first < last) (v : ℚ) (hv1 : first ≤ v) (hv2 : v ≤ last) :
    (List.range n).countP
      (fun i => binMem first ((last - first) / n) n i v) = 1 := by
  set w : ℚ := (last - first) / n with hw_def
  have hnQ : (0 : ℚ) < n := by exact_mod_cast Nat.pos_of_ne_zero (by omega)
  have hw : 0 < w := div_pos (by linarith) hnQ
  have hlast : first + n * w = last := by
    rw [hw_def]; field_simp
  set t : ℚ := (v - first) / w with ht_def
  have ht0 : 0 ≤ t := div_nonneg (by linarith) hw.le
  set k : ℕ := min ⌊t⌋₊ (n - 1) with hk_def
  have hkmem : k ∈ List.range n := by
    rw [List.mem_range]; omega
  have hlow : ∀ j : ℕ, (j : ℚ) ≤ t → first + j * w ≤ v := by
    intro j hj
    have := (le_div_iff₀ hw).mp hj
    linarith
  have hlow' : ∀ j : ℕ, first + j * w ≤ v → (j : ℚ) ≤ t := by
    intro j hj
    rw [ht_def, le_div_iff₀ hw]
    linarith
  have hup : ∀ j : ℕ, t < (j : ℚ) + 1 → v < first + (j + 1) * w := by
    intro j hj
    have : v - first < ((j : ℚ) + 1) * w := by
      rw [ht_def, div_lt_iff₀ hw] at hj
      linarith
    push_cast at this ⊢
    linarith
  have hup' : ∀ j : ℕ, v < first + (j + 1) * w → t < (j : ℚ) + 1 := by
    intro j hj
    rw [ht_def, div_lt_iff₀ hw]
    linarith
  have hqk : binMem first w n k v = true := by
    unfold binMem
    have h1 : first + k * w ≤ v := by
      apply hlow
      calc (k : ℚ) ≤ (⌊t⌋₊ : ℚ) := by exact_mod_cast Nat.cast_le.mpr (min_le_left _ _)
        _ ≤ t := Nat.floor_le ht0
    by_cases hin : k + 1 < n
    · have hkf : k = ⌊t⌋₊ := by omega
      have h2 : v < first + (k + 1) * w := by
        apply hup
        rw [hkf]
        exact_mod_cast Nat.lt_floor_add_one t
      simp [hin, h1, h2]
    · have hkn : k + 1 = n := by omega
      have h2 : v ≤ first + (k + 1) * w := by
        have : ((k : ℚ) + 1) = (n : ℚ) := by exact_mod_cast congrArg Nat.cast hkn
        rw [this]
        linarith [hlast]
      simp [hin, h1, h2]
  have huniq : ∀ j ∈ List.range n, binMem first w n j v = true → j = k := by
    intro j hjmem hj
    rw [List.mem_range] at hjmem
    unfold binMem at hj
    rw [Bool.and_eq_true, decide_eq_true_eq] at hj
    obtain ⟨hj1, hj2⟩ := hj
    have hjt : (j : ℚ) ≤ t := hlow' j hj1
    have hjfloor : j ≤ ⌊t⌋₊ := Nat.le_floor hjt
    by_cases hin : j + 1 < n
    · rw [if_pos hin, decide_eq_true_eq] at hj2
      have hlt1 : t < (j : ℚ) + 1 := hup' j hj2
      have hfj : ⌊t⌋₊ < j + 1 := by
        rw [Nat.floor_lt ht0]
        push_cast
        exact hlt1
      omega
    · omega
  exact countP_eq_one_of_unique _ _ k (List.nodup_range n) hkmem hqk huniq

theorem listMin_le (l : List ℚ) (v : ℚ) (hv : v ∈ l) : listMin l ≤ v := by
  induction l with
  | nil => cases hv
  | cons x xs ih =>
    cases xs with
    | nil =>
      rcases List.mem_cons.mp hv with rfl | h
      · exact le_refl v
      · cases h
    | cons y ys =>
      rcases List.mem_cons.mp hv with rfl | h
      · exact min_le_left _ _
      · exact le_trans (min_le_right _ _) (ih h)

theorem le_listMax (l : List ℚ) (v : ℚ) (hv : v ∈ l) : v ≤ listMax l := by
  induction l with
  | nil => cases hv
  | cons x xs ih =>
    cases xs with
    | nil =>
      rcases List.mem_cons.mp hv with rfl | h
      · exact le_refl v
      · cases h
    | cons y ys =>
      rcases List.mem_cons.mp hv with rfl | h
      · exact le_max_left _ _
      · exact le_trans (ih h) (le_max_right _ _)

theorem sum_map_add_distrib {α : Type} (l : List α) (f g : α → ℕ) :
    (l.map fun a => f a + g a).sum = (l.map f).sum + (l.map g).sum := by
  induction l with
  | nil => simp
  | cons a l ih => simp [ih]; omega

theorem sum_map_ite_eq_countP {α : Type} (l : List α) (q : α → Bool) :
    (l.map fun a => if q a then 1 else 0).sum = l.countP q := by
  induction l with
  | nil => simp
  | cons a l ih =>
    rw [List.map_cons, List.sum_cons, List.countP_cons, ih]
    cases q a <;> (simp; try omega)

theorem sum_countP_of_unique (idx : List ℕ) (l : List ℚ) (p : ℕ → ℚ → Bool)
    (h : ∀ v ∈ l, idx.countP (fun i => p i v) = 1) :
    (idx.map (fun i => l.countP (p i))).sum = l.length := by
  induction l with
  | nil => simp
  | cons x xs ih =>
    have hstep : (idx.map fun i => (x :: xs).countP (p i))
        = idx.map (fun i => xs.countP (p i) + if p i x then 1 else 0) := by
      apply List.map_congr_left
      intro i _
      rw [List.countP_cons]
    rw [hstep, sum_map_add_distrib, sum_map_ite_eq_countP,
      ih (fun v hv => h v (List.mem_cons_of_mem x hv)),
      h x (List.mem_cons_self x xs)]
    simp

theorem outerEdges_lt (vals : List ℚ) (hne : vals ≠ []) :
    (outerEdges vals).1 < (outerEdges vals).2
    ∧ (outerEdges vals).1 ≤ listMin vals
    ∧ listMax vals ≤ (outerEdges vals).2 := by
  match vals with
  | [] => exact absurd rfl hne
  | x :: xs =>
    have hmm : listMin (x :: xs) ≤ listMax (x :: xs) :=
      le_trans (listMin_le _ x (List.mem_cons_self x xs))
        (le_listMax _ x (List.mem_cons_self x xs))
    unfold outerEdges
    by_cases h : listMin (x :: xs) = listMax (x :: xs)
    · rw [if_pos h]
      refine ⟨?_, ?_, ?_⟩ <;> (simp; try linarith)
    · rw [if_neg h]
      exact ⟨lt_of_le_of_ne hmm h, le_refl _, le_refl _⟩

theorem histogram_counts_sum (vals : List ℚ) (n : ℕ) (hne : vals ≠ [])
    (hn : 1 ≤ n) :
    ((histogram vals n).map (fun b => b.2.2)).sum = vals.length := by
  obtain ⟨hlt, hmn, hmx⟩ := outerEdges_lt vals hne
  unfold histogram histogramOn
  rw [List.map_map]
  have hmapeq : ((fun b : ℚ × ℚ × ℕ => b.2.2) ∘ fun (i : ℕ) =>
      ((outerEdges vals).1 + i * (((outerEdges vals).2 - (outerEdges vals).1) / n),
       (outerEdges vals).1 + (i + 1) * (((outerEdges vals).2 - (outerEdges vals).1) / n),
       vals.countP (binMem (outerEdges vals).1
         (((outerEdges vals).2 - (outerEdges vals).1) / n) n i)))
      = fun (i : ℕ) => vals.countP (binMem (outerEdges vals).1
         (((outerEdges vals).2 - (outerEdges vals).1) / n) n i) := rfl
  rw [hmapeq]
  apply sum_countP_of_unique
  intro v hv
  exact binMem_countP_range (outerEdges vals).1 (outerEdges vals).2 n hn hlt v
    (le_trans hmn (listMin_le vals v hv))
    (le_trans (le_listMax vals v hv) hmx)

theorem histogram_eq_spec_of_lt (vals : List ℚ) (n : ℕ)
    (hlt : listMin vals < listMax vals) :
    histogram vals n = specHistogram vals n := by
  have hne : vals ≠ [] := by
    intro h
    rw [h] at hlt
    simp [listMin, listMax] at hlt
  have houter : outerEdges vals = (listMin vals, listMax vals) := by
    match vals with
    | [] => exact absurd rfl hne
    | x :: xs =>
      unfold outerEdges
      rw [if_neg (ne_of_lt hlt)]
  unfold histogram specHistogram
  rw [houter]

theorem varX_nonneg (l : List (ℚ × ℚ)) : 0 ≤ varX l := by
  apply List.sum_nonneg
  intro x hx
  obtain ⟨p, _, rfl⟩ := List.mem_map.mp hx
  positivity

theorem varY_nonneg (l : List (ℚ × ℚ)) : 0 ≤ varY l := by
  apply List.sum_nonneg
  intro x hx
  obtain ⟨p, _, rfl⟩ := List.mem_map.mp hx
  positivity

theorem list_cauchy_schwarz (l : List (ℚ × ℚ)) (F G : ℚ × ℚ → ℚ) :
    ((l.map fun p => F p * G p).sum) ^ 2
      ≤ ((l.map fun p => F p ^ 2).sum) * ((l.map fun p => G p ^ 2).sum) := by
  induction l with
  | nil => simp
  | cons p l ih =>
    simp only [List.map_cons, List.sum_cons]
    set A := (l.map fun p => F p * G p).sum with hA
    set B := (l.map fun p => F p ^ 2).sum with hB_def
    set C := (l.map fun p => G p ^ 2).sum with hC_def
    have hB : 0 ≤ B := by
      rw [hB_def]
      apply List.sum_nonneg
      intro x hx
      obtain ⟨q, _, rfl⟩ := List.mem_map.mp hx
      positivity
    have hC : 0 ≤ C := by
      rw [hC_def]
      apply List.sum_nonneg
      intro x hx
      obtain ⟨q, _, rfl⟩ := List.mem_map.mp hx
      positivity
    set a := F p
    set b := G p
    rcases eq_or_lt_of_le hC with hC0 | hCpos
    · have hA2 : A ^ 2 ≤ 0 := by
        have := ih
        rw [← hC0, mul_zero] at this
        exact this
      have hA0 : A = 0 :=
        (pow_eq_zero_iff two_ne_zero).mp (le_antisymm hA2 (sq_nonneg A))
      rw [hA0, ← hC0]
      nlinarith [mul_nonneg hB (sq_nonneg b)]
    · nlinarith [sq_nonneg (a * C - b * A),
        mul_nonneg (sq_nonneg b) (sub_nonneg.mpr ih),
        mul_nonneg hCpos.le (sub_nonneg.mpr ih), hCpos, ih]

theorem covS_sq_le (l : List (ℚ × ℚ)) : (covS l) ^ 2 ≤ varX l * varY l :=
  list_cauchy_schwarz l _ _

theorem pearson_bounds (l : List (ℚ × ℚ)) (r : ℝ) (h : pearson l = some r) :
    -1 ≤ r ∧ r ≤ 1 := by
  unfold pearson at h
  by_cases hc : varX l = 0 ∨ varY l = 0
  · rw [if_pos hc] at h
    cases h
  · rw [if_neg hc] at h
    push_neg at hc
    have hx : 0 < varX l := lt_of_le_of_ne (varX_nonneg l) (Ne.symm hc.1)
    have hy : 0 < varY l := lt_of_le_of_ne (varY_nonneg l) (Ne.symm hc.2)
    have hP : (0 : ℝ) < (varX l : ℝ) * (varY l : ℝ) := by
      have : (0 : ℚ) < varX l * varY l := mul_pos hx hy
      exact_mod_cast this
    have hsq : ((covS l : ℝ)) ^ 2 ≤ (varX l : ℝ) * (varY l : ℝ) := by
      exact_mod_cast covS_sq_le l
    have habs : |(covS l : ℝ)| ≤ Real.sqrt ((varX l : ℝ) * (varY l : ℝ)) := by
      rw [← Real.sqrt_sq_eq_abs]
      exact Real.sqrt_le_sqrt hsq
    have hspos : 0 < Real.sqrt ((varX l : ℝ) * (varY l : ℝ)) :=
      Real.sqrt_pos.mpr hP
    have hr : r = (covS l : ℝ) / Real.sqrt ((varX l : ℝ) * (varY l : ℝ)) :=
      (Option.some.injEq _ _ ▸ h).symm
    have habs1 : |r| ≤ 1 := by
      rw [hr, abs_div, abs_of_pos hspos]
      exact div_le_one_of_le₀ habs hspos.le
    exact abs_le.mp habs1

theorem completePairs_swap (l : List (Option ℚ × Option ℚ)) :
    completePairs (l.map (fun p => (p.2, p.1)))
      = (completePairs l).map (fun q => (q.2, q.1)) := by
  induction l with
  | nil => rfl
  | cons p l ih =>
    obtain ⟨x, y⟩ := p
    cases x <;> cases y <;>
      simp [completePairs, List.filterMap_cons] at ih ⊢ <;> exact ih

theorem map_swap_fst (l : List (ℚ × ℚ)) :
    (l.map (fun q : ℚ × ℚ => (q.2, q.1))).map Prod.fst = l.map Prod.snd := by
  rw [List.map_map]; rfl

theorem map_swap_snd (l : List (ℚ × ℚ)) :
    (l.map (fun q : ℚ × ℚ => (q.2, q.1))).map Prod.snd = l.map Prod.fst := by
  rw [List.map_map]; rfl

theorem covS_swap (l : List (ℚ × ℚ)) :
    covS (l.map (fun q => (q.2, q.1))) = covS l := by
  unfold covS
  rw [map_swap_fst, map_swap_snd, List.map_map]
  have hfun : ((fun p : ℚ × ℚ =>
        (p.1 - meanQ (l.map Prod.snd)) * (p.2 - meanQ (l.map Prod.fst)))
      ∘ fun q : ℚ × ℚ => (q.2, q.1))
      = fun p : ℚ × ℚ =>
        (p.1 - meanQ (l.map Prod.fst)) * (p.2 - meanQ (l.map Prod.snd)) := by
    funext p
    simp [Function.comp]
    ring
  rw [hfun]

theorem varX_swap (l : List (ℚ × ℚ)) :
    varX (l.map (fun q => (q.2, q.1))) = varY l := by
  unfold varX varY
  rw [map_swap_fst, List.map_map]
  rfl

theorem varY_swap (l : List (ℚ × ℚ)) :
    varY (l.map (fun q => (q.2, q.1))) = varX l := by
  unfold varX varY
  rw [map_swap_snd, List.map_map]
  rfl

theorem pearson_swap (l : List (ℚ × ℚ)) :
    pearson (l.map (fun q => (q.2, q.1))) = pearson l := by
  unfold pearson
  rw [covS_swap, varX_swap, varY_swap]
  by_cases h : varX l = 0 ∨ varY l = 0
  · rw [if_pos h, if_pos (Or.symm h)]
  · rw [if_neg h, if_neg (fun hc => h (Or.symm hc))]
    congr 1
    rw [mul_comm]

theorem round_mono_of_le {x y : ℝ} (h : x ≤ y) : round x ≤ round y := by
  rw [round_eq, round_eq]
  exact Int.floor_le_floor (by linarith)

theorem roundTo2_one : roundTo2 1 = 1 := by
  unfold roundTo2
  rw [show ((1 : ℝ) * 100) = ((100 : ℤ) : ℝ) by norm_num, round_intCast]
  norm_num

theorem roundTo2_bounds (x : ℝ) (h1 : -1 ≤ x) (h2 : x ≤ 1) :
    -1 ≤ roundTo2 x ∧ roundTo2 x ≤ 1 := by
  unfold roundTo2
  have hu : round (x * 100) ≤ 100 := by
    calc round (x * 100) ≤ round ((100 : ℤ) : ℝ) := by
          apply round_mono_of_le
          push_cast
          linarith
      _ = 100 := round_intCast 100
  have hl : -100 ≤ round (x * 100) := by
    calc (-100 : ℤ) = round ((-100 : ℤ) : ℝ) := (round_intCast (-100)).symm
      _ ≤ round (x * 100) := by
          apply round_mono_of_le
          push_cast
          linarith
  constructor
  · rw [le_div_iff₀ (by norm_num : (0:ℝ) < 100)]
    have hcast : ((-100 : ℤ) : ℝ) ≤ (round (x * 100) : ℝ) := by exact_mod_cast hl
    push_cast at hcast ⊢
    linarith
  · rw [div_le_one (by norm_num : (0:ℝ) < 100)]
    exact_mod_cast hu

theorem covS_diag (l : List ℚ) :
    covS (l.map (fun a => (a, a))) = varX (l.map (fun a => (a, a))) := by
  unfold covS varX
  have hmm : ((l.map (fun a => (a, a))).map Prod.snd)
      = ((l.map (fun a => (a, a))).map Prod.fst) := by
    rw [List.map_map, List.map_map]
    rfl
  rw [hmm]
  congr 1
  apply List.map_congr_left
  intro p hp
  obtain ⟨a, _, rfl⟩ := List.mem_map.mp hp
  ring

theorem varY_diag (l : List ℚ) :
    varY (l.map (fun a => (a, a))) = varX (l.map (fun a => (a, a))) := by
  unfold varY varX
  have hmm : ((l.map (fun a => (a, a))).map Prod.snd)
      = ((l.map (fun a => (a, a))).map Prod.fst) := by
    rw [List.map_map, List.map_map]
    rfl
  rw [hmm]
  congr 1
  apply List.map_congr_left
  intro p hp
  obtain ⟨a, _, rfl⟩ := List.mem_map.mp hp
  rfl

theorem pearson_diag (l : List ℚ)
    (hvar : varX (l.map (fun a => (a, a))) ≠ 0) :
    pearson (l.map (fun a => (a, a))) = some 1 := by
  unfold pearson
  rw [varY_diag, covS_diag]
  rw [if_neg (by
    intro hc
    rcases hc with hc | hc <;> exact hvar hc)]
  have hpos : 0 < varX (l.map (fun a => (a, a))) :=
    lt_of_le_of_ne (varX_nonneg _) (Ne.symm hvar)
  have hposR : (0 : ℝ) < (varX (l.map (fun a => (a, a))) : ℝ) := by
    exact_mod_cast hpos
  rw [Real.sqrt_mul_self hposR.le, div_self hposR.ne.symm]

theorem pearson_diag_none (l : List ℚ)
    (hvar : varX (l.map (fun a => (a, a))) = 0) :
    pearson (l.map (fun a => (a, a))) = none := by
  unfold pearson
  rw [if_pos (Or.inl hvar)]

theorem completePairs_cons_none_left (x : Option ℚ)
    (l : List (Option ℚ × Option ℚ)) :
    completePairs ((none, x) :: l) = completePairs l := by
  cases x <;> rfl

theorem completePairs_cons_none_right (x : Option ℚ)
    (l : List (Option ℚ × Option ℚ)) :
    completePairs ((x, none) :: l) = completePairs l := by
  cases x <;> rfl

theorem pairCol_swap (view : List Record) (c1 c2 : NumCol) :
    pairCol view c2 c1 = (pairCol view c1 c2).map (fun p => (p.2, p.1)) := by
  unfold pairCol
  rw [List.map_map]
  rfl

theorem corrEntry_symm (view : List Record) (c1 c2 : NumCol) :
    corrEntry view c1 c2 = corrEntry view c2 c1 := by
  unfold corrEntry
  rw [pairCol_swap view c1 c2, completePairs_swap, pearson_swap]

theorem completePairs_pairCol_diag (view : List Record) (c : NumCol) :
    completePairs (pairCol view c c)
      = (view.filterMap (fun r => colVal r c)).map (fun a => (a, a)) := by
  induction view with
  | nil => rfl
  | cons r vs ih =>
    cases h : colVal r c <;>
      simp [completePairs, pairCol, List.filterMap_cons, h] at ih ⊢ <;>
      exact ih

/-! ### Claim theorems -/

/-- C1: a row of the Table is in the FilteredView iff its Age is non-missing and
lies in the inclusive range, its Gender equals the chosen gender when that
filter is active, and its Country equals the chosen country when that filter
is active; rows with missing Age are excluded. -/
theorem filter_stage_characterisation (tbl : List Record) (fs : FilterSpec)
    (r : Record) (hr : r ∈ tbl) :
    r ∈ filteredView tbl fs ↔ specPred fs r := by
  rw [mem_filteredView]
  exact and_iff_right hr

/-- The spec's own scenario: ages 25 and 70, bounds [20,60]: only the first
row passes. -/
theorem filter_stage_characterisation_witness :
    recA ∈ filteredView [recA, recB]
      { age_min := 20, age_max := 60, gender := "All", country := "All" } := by
  refine (filter_stage_characterisation [recA, recB]
    { age_min := 20, age_max := 60, gender := "All", country := "All" }
    recA (by decide)).mpr ?_
  refine ⟨⟨25, by decide⟩, ?_, ?_⟩ <;> intro h <;> simp at h

/-- C2: the FilteredView is a subsequence of the Table: order preserved, no
duplication, no invented rows; it may be empty. -/
theorem filteredView_sublist (tbl : List Record) (fs : FilterSpec) :
    (filteredView tbl fs).Sublist tbl := by
  unfold filteredView
  have h1 : (tbl.filter (ageOk fs.age_min fs.age_max)).Sublist tbl :=
    List.filter_sublist tbl
  by_cases hg : fs.gender = "All" <;> by_cases hc : fs.country = "All" <;>
    simp only [hg, hc, if_true, if_false, ite_true, ite_false] <;>
    first
      | exact h1
      | exact ((List.filter_sublist _).trans h1)
      | exact ((List.filter_sublist _).trans ((List.filter_sublist _).trans h1))

/-- C9: the claim (and the spec) promise that the selectable options are the
distinct non-missing column values plus the sentinel; the script instead
feeds `unique()` — which keeps NaN — to `sorted`, which throws a `TypeError`
on a column that has both a missing value and a string value, so option
construction crashes instead of listing the non-missing values.  On a column
with no missing value the promised list is produced. -/
theorem select_options_crash_on_missing :
    selectOptions [some "Female", none] = none
      ∧ selectOptions [some "Female"] = some [some "All", some "Female"] := by
  constructor <;> decide

/-- C8: over any FilteredView the per-category counts of
`value_counts()` are non-negative and sum exactly to the number of rows of
the view whose counted column (risk level, resp. diagnosis) is non-missing. -/
theorem category_counts_sum (tbl : List Record) (fs : FilterSpec) :
    (∀ p ∈ valueCounts ((filteredView tbl fs).map (fun r => r.risk)), 0 ≤ p.2)
    ∧ ((valueCounts ((filteredView tbl fs).map (fun r => r.risk))).map
        Prod.snd).sum
      = ((filteredView tbl fs).filter (fun r => r.risk.isSome)).length
    ∧ ((valueCounts ((filteredView tbl fs).map (fun r => r.diagnosis))).map
        Prod.snd).sum
      = ((filteredView tbl fs).filter (fun r => r.diagnosis.isSome)).length := by
  refine ⟨fun p _ => Nat.zero_le _, ?_, ?_⟩ <;>
    rw [valueCounts_sum, List.filterMap_map, length_filterMap_eq_countP,
      ← List.countP_eq_length_filter] <;> simp [Function.comp]

/-- C10: the pie chart's colour assignment truncates the fixed 5-element
palette to the number of distinct Diagnosis categories; with more than 5
categories the column assignment fails (slice shorter than the category
list), and with at most 5 it succeeds. -/
theorem pie_colors_limit (view : List Record) :
    (5 < (diagCategories view).length
      → assignColors (diagCategories view) = none)
    ∧ ((diagCategories view).length ≤ 5
      → (assignColors (diagCategories view)).isSome) := by
  constructor
  · intro h
    cases hcase : assignColors (diagCategories view) with
    | none => rfl
    | some v =>
      exfalso
      have : (diagCategories view).length ≤ 5 := by
        rw [← assignColors_isSome_iff]
        simp [hcase]
      omega
  · intro h
    exact (assignColors_isSome_iff _).mpr h

/-- Concrete six-category view: colour assignment fails; a five-category
view succeeds. -/
theorem pie_colors_limit_witness :
    assignColors (diagCategories
      (["A", "B", "C", "D", "E", "F"].map mkDiag)) = none
    ∧ (assignColors (diagCategories
      (["A", "B", "C", "D", "E"].map mkDiag))).isSome :=
  ⟨(pie_colors_limit (["A", "B", "C", "D", "E", "F"].map mkDiag)).1 (by decide),
   (pie_colors_limit (["A", "B", "C", "D", "E"].map mkDiag)).2 (by decide)⟩

/-- C5 counterexample: on values whose min equals max (here `[5, 5]` with 2
bins) numpy widens the range to `[min - 0.5, max + 0.5]`, so the produced
bins are neither a division of `[min, max]` nor a single degenerate bin. -/
theorem histogram_degenerate_counterexample :
    histogram [5, 5] 2 ≠ specHistogram [5, 5] 2 := by
  norm_num [histogram, specHistogram, histogramOn, outerEdges, listMin,
    listMax, binMem, List.range_succ, List.countP_cons]

/-- C5 (amended): for a non-empty value list and `n ≥ 1` bins, the bin counts
always sum to the number of values; and whenever `min < max` the bins are
exactly the claim's division of `[min, max]` into `n` equal-width intervals,
half-open except the last.  (When `min = max` numpy instead divides
`[min - 0.5, max + 0.5]`.) -/
theorem histogram_binning (vals : List ℚ) (n : ℕ) (hne : vals ≠ [])
    (hn : 1 ≤ n) :
    ((histogram vals n).map (fun b => b.2.2)).sum = vals.length
    ∧ (listMin vals < listMax vals → histogram vals n = specHistogram vals n) :=
  ⟨histogram_counts_sum vals n hne hn,
   fun hlt => histogram_eq_spec_of_lt vals n hlt⟩

/-- The spec's own scenario: values [10, 20, 30] in 2 bins give counts 1 and
2, which sum to 3; min < max, so the bins divide `[10, 30]` exactly. -/
theorem histogram_binning_witness :
    ((histogram [10, 20, 30] 2).map (fun b => b.2.2)).sum = 3
    ∧ histogram [10, 20, 30] 2 = specHistogram [10, 20, 30] 2 := by
  have h := histogram_binning [10, 20, 30] 2 (by simp) (by omega)
  exact ⟨h.1.trans rfl, h.2 (by norm_num [listMin, listMax])⟩

/-- C3 counterexample: `load_data` only calls `read_csv`; a column holding
`"30"` and the unparseable `"abc"` is kept as strings by dtype inference —
the unparseable cell does not become a missing value as the claim states. -/
theorem load_data_no_coercion_counterexample :
    inferColumn ["30", "abc"] = [CellVal.str "30", CellVal.str "abc"]
    ∧ coerceColumn ["30", "abc"] = [CellVal.num 30, CellVal.missing]
    ∧ inferColumn ["30", "abc"] ≠ coerceColumn ["30", "abc"] := by
  refine ⟨by decide, by decide, by decide⟩

/-- C3 (amended): `load_data` performs no designated-column coercion; pandas
dtype inference converts a column cell-by-cell to numbers (empty cells
becoming missing) exactly when every non-empty cell of the column parses as
a number, and otherwise keeps the cells as strings. -/
theorem inferColumn_eq_coerce_of_all_numeric (col : List String)
    (h : ∀ s ∈ col, s = "" ∨ (parseNum s).isSome) :
    inferColumn col = coerceColumn col := by
  unfold inferColumn coerceColumn
  rw [if_pos (by
    rw [List.all_eq_true]
    intro s hs
    rcases h s hs with h1 | h2
    · simp [h1]
    · simp [h2])]
  apply List.map_congr_left
  intro s hs
  by_cases hse : s = ""
  · subst hse
    simp [show parseNum "" = none from rfl]
  · rcases h s hs with h1 | h2
    · exact absurd h1 hse
    · rw [if_neg hse]

/-- An all-numeric column (with an empty cell) is indeed coerced cell-wise. -/
theorem inferColumn_eq_coerce_witness :
    inferColumn ["30", ""] = coerceColumn ["30", ""] :=
  inferColumn_eq_coerce_of_all_numeric ["30", ""] (by decide)

/-- C7 counterexample: a single-row view gives the Age column one valid row,
yet the diagonal entry is NaN (`none`), not 1.0 — pandas `nancorr` returns
NaN whenever the centred square sum is zero, so one valid row is not enough. -/
theorem correlation_diag_counterexample :
    countValid [recA] NumCol.Age = 1
    ∧ corrEntry [recA] NumCol.Age NumCol.Age ≠ some 1 := by
  constructor
  · decide
  · have hvar : varX (completePairs (pairCol [recA] NumCol.Age NumCol.Age)) = 0 := by
      rw [completePairs_pairCol_diag]
      norm_num [varX, meanQ, recA, colVal, List.filterMap_cons, Function.comp]
    rw [completePairs_pairCol_diag] at hvar
    unfold corrEntry
    rw [completePairs_pairCol_diag, pearson_diag_none _ hvar]
    simp

/-- C7 (amended): every correlation-matrix entry is symmetric, lies in
[-1, 1] when produced, ignores rows with a missing value in either column of
the pair, and the diagonal entry is 1.0 exactly when the column's centred
square sum over its valid rows is non-zero (at least two valid rows with
non-constant value); otherwise the diagonal entry is missing. -/
theorem correlation_matrix_props (view : List Record) (c1 c2 c : NumCol) :
    corrEntry view c1 c2 = corrEntry view c2 c1
    ∧ (∀ x : ℝ, corrEntry view c1 c2 = some x → -1 ≤ x ∧ x ≤ 1)
    ∧ (varX (completePairs (pairCol view c c)) ≠ 0
        → corrEntry view c c = some 1)
    ∧ (varX (completePairs (pairCol view c c)) = 0
        → corrEntry view c c = none)
    ∧ (∀ r0 : Record, colVal r0 c1 = none ∨ colVal r0 c2 = none
        → corrEntry (r0 :: view) c1 c2 = corrEntry view c1 c2) := by
  refine ⟨corrEntry_symm view c1 c2, ?_, ?_, ?_, ?_⟩
  · intro x hx
    unfold corrEntry at hx
    obtain ⟨y, hy, hxy⟩ := Option.map_eq_some'.mp hx
    obtain ⟨hy1, hy2⟩ := pearson_bounds _ y hy
    rw [← hxy]
    exact roundTo2_bounds y hy1 hy2
  · intro hvar
    rw [completePairs_pairCol_diag] at hvar
    unfold corrEntry
    rw [completePairs_pairCol_diag, pearson_diag _ hvar]
    simp [roundTo2_one]
  · intro hvar
    rw [completePairs_pairCol_diag] at hvar
    unfold corrEntry
    rw [completePairs_pairCol_diag, pearson_diag_none _ hvar]
    rfl
  · intro r0 h
    unfold corrEntry pairCol
    rw [List.map_cons]
    rcases h with h | h <;> rw [h]
    · rw [completePairs_cons_none_left]
    · rw [completePairs_cons_none_right]

/-- Two rows with distinct ages: the diagonal entry of the Age column is 1.0
(its centred square sum 2025/2 is non-zero). -/
theorem correlation_matrix_props_witness :
    corrEntry [recA, recB] NumCol.Age NumCol.Age = some 1 :=
  (correlation_matrix_props [recA, recB] NumCol.Age NumCol.Age NumCol.Age).2.2.1
    (by
      rw [completePairs_pairCol_diag]
      norm_num [varX, meanQ, recA, recB, colVal, List.filterMap_cons,
        Function.comp])

/-- C6: the correlation heatmap is computed iff at least two numeric columns
are selected; with fewer the script only emits the warning — no degenerate
matrix is built or passed on. -/
theorem heatmap_requires_two_columns (view : List Record) (cols : List NumCol) :
    ((heatmapStage view cols).isSome ↔ 2 ≤ cols.length)
    ∧ (cols.length < 2 → heatmapStage view cols = none) := by
  unfold heatmapStage
  constructor
  · by_cases h : 2 ≤ cols.length <;> simp [h]
  · intro h
    rw [if_neg (by omega)]

/-- A single selected column yields no matrix; two columns yield one. -/
theorem heatmap_requires_two_columns_witness :
    heatmapStage [] [NumCol.Age] = none :=
  (heatmap_requires_two_columns [] [NumCol.Age]).2 (by decide)

/-- C4 counterexample: on an empty FilteredView the histogram is not the
claimed empty `HistogramBins`: `np.histogram` falls back to the range
`(0, 1)` and returns `bin_count` zero-count bins. -/
theorem empty_histogram_counterexample :
    histogram (([] : List Record).filterMap (fun r => r.age)) 5 ≠ [] := by
  simp [histogram, histogramOn]

/-- C4 (amended): on an empty FilteredView nothing crashes and each
aggregation yields a no-data result, but not all are empty: category counts
are empty, the histogram consists of `n` bins (over numpy's fallback range
`[0, 1]`) each counting zero, every correlation entry is missing, and the
pie-chart colour assignment succeeds with an empty list. -/
theorem empty_view_no_data (view : List Record) (hv : view = []) (n : ℕ)
    (c1 c2 : NumCol) :
    valueCounts (view.map (fun r => r.risk)) = []
    ∧ valueCounts (view.map (fun r => r.diagnosis)) = []
    ∧ (histogram (view.filterMap (fun r => r.age)) n).length = n
    ∧ (∀ b ∈ histogram (view.filterMap (fun r => r.age)) n, b.2.2 = 0)
    ∧ corrEntry view c1 c2 = none
    ∧ assignColors (diagCategories view) = some [] := by
  subst hv
  refine ⟨rfl, rfl, ?_, ?_, ?_, ?_⟩
  · simp [histogram, histogramOn]
  · intro b hb
    simp only [List.filterMap_nil, histogram, histogramOn] at hb
    obtain ⟨i, _, rfl⟩ := List.mem_map.mp hb
    rfl
  · unfold corrEntry pairCol
    simp [completePairs, pearson, varX]
  · decide

/-- Concrete instance of the empty-view behaviour. -/
theorem empty_view_no_data_witness :
    valueCounts (([] : List Record).map (fun r => r.risk)) = []
    ∧ corrEntry ([] : List Record) NumCol.Age NumCol.TSH_Level = none :=
  ⟨(empty_view_no_data [] rfl 5 NumCol.Age NumCol.TSH_Level).1,
   (empty_view_no_data [] rfl 5 NumCol.Age NumCol.TSH_Level).2.2.2.2.1⟩

end Visdat
